import Mathlib

/-!
Verification of the `nordic` dictionary search tool (`src/nordic/nor.py`)
against its natural-language specification.

The program is a line-oriented dictionary: a document is a list of text
lines (obtained in Python by `content.split('\n')`, so no line contains a
newline character).  We embed the matching engine shallowly: each Python
helper becomes a Lean function over `List Char`, and the regular
expressions used by the source are compiled by hand into deterministic
scanners (every pattern used by the program is backtracking-free, which is
argued case by case in the comments below).

Modelling scope for Python's Unicode behaviour: `str.lower()` and the
regex classes `\s`/`\w` are modelled exactly for code points below 0x100
(ASCII and Latin-1, which covers the Norwegian corpus alphabet required by
the spec, §6) together with the superscript digits; other code points are
left unchanged / classified as non-word.  This is recorded on each
definition.
-/

namespace Nordic

/-- Python regex `\s` (Unicode whitespace) membership for one character.
Exact for all of ASCII/Latin-1 plus the Unicode space separators. -/
def isPySpace (c : Char) : Bool :=
  c == ' ' || c == '\t' || c == '\n' || c == '\r' ||
  c.toNat == 0x0b || c.toNat == 0x0c ||
  (0x1c ≤ c.toNat && c.toNat ≤ 0x1f) || c.toNat == 0x85 || c.toNat == 0xa0 ||
  c.toNat == 0x1680 || (0x2000 ≤ c.toNat && c.toNat ≤ 0x200a) ||
  c.toNat == 0x2028 || c.toNat == 0x2029 || c.toNat == 0x202f ||
  c.toNat == 0x205f || c.toNat == 0x3000

/-- Python regex `\w` (word character) membership.  Exact for code points
below 0x100 (ASCII alphanumerics, underscore, Latin-1 letters and the
numeric signs Python's `str.isalnum` accepts) plus the superscript digits
block; other code points are classified as non-word. -/
def isWordChar (c : Char) : Bool :=
  ('a' ≤ c && c ≤ 'z') || ('A' ≤ c && c ≤ 'Z') || ('0' ≤ c && c ≤ '9') ||
  c == '_' ||
  c.toNat == 0xaa || c.toNat == 0xb2 || c.toNat == 0xb3 || c.toNat == 0xb5 ||
  c.toNat == 0xb9 || c.toNat == 0xba ||
  (0xbc ≤ c.toNat && c.toNat ≤ 0xbe) ||
  (0xc0 ≤ c.toNat && c.toNat ≤ 0xff && !(c.toNat == 0xd7) && !(c.toNat == 0xf7)) ||
  (0x2070 ≤ c.toNat && c.toNat ≤ 0x2079)

/-- Python `str.lower()` on one character.  Exact for code points below
0x100: ASCII `A`-`Z` and the Latin-1 uppercase letters `À`-`Þ` (except the
multiplication sign `×`) map 0x20 upwards; everything else in that range is
already caseless or lowercase.  Code points at or above 0x100 are left
unchanged. -/
def pyLowerChar (c : Char) : Char :=
  if 'A' ≤ c && c ≤ 'Z' then Char.ofNat (c.toNat + 32)
  else if 0xc0 ≤ c.toNat && c.toNat ≤ 0xde && !(c.toNat == 0xd7) then
    Char.ofNat (c.toNat + 32)
  else c

/-- Python `str.lower()` on a string (character-wise, see `pyLowerChar`). -/
def pyLower (s : List Char) : List Char := s.map pyLowerChar

/-- The four superscript digits stripped by `normalize_headword`
(the character class `[¹²³⁴]` of `nor.py` line 108). -/
def isSupDigit (c : Char) : Bool :=
  c == '¹' || c == '²' || c == '³' || c == '⁴'

/-- `normalize_headword` (`nor.py` 106-108): `re.sub(r'[¹²³⁴]', '', head_term)`,
i.e. delete every superscript-digit character. -/
def normalize_headword (s : List Char) : List Char :=
  s.filter (fun c => !(isSupDigit c))

/-- Python substring containment `needle in hay`. -/
def listContains (n : List Char) : List Char → Bool
  | [] => n.isEmpty
  | c :: t => n.isPrefixOf (c :: t) || listContains n t

/-- Python `s.startswith(p)`. -/
def pyStartsWithB (s p : List Char) : Bool := p.isPrefixOf s

/-- Python `s.endswith(p)` (via reversal, which is equivalent). -/
def pyEndsWithB (s p : List Char) : Bool := p.reverse.isPrefixOf s.reverse

/-- Python `s.strip('*')`: drop `*` characters from both ends. -/
def pyStripStar (s : List Char) : List Char :=
  ((s.dropWhile (fun c => c == '*')).reverse.dropWhile (fun c => c == '*')).reverse

/-- The main-entry regex `^\s*[-•]\s+\*?\*?([^\s*]+)(?:\*\*)?(.*?)$`
(`nor.py` 206, 436, 530), applied with `re.match` to one line (which
contains no newline).  Returns `(group 1, group 2)` on success.

The pattern is deterministic: `\s*`/`\s+` are greedy runs of whitespace
followed by non-whitespace elements, `\*?\*?` consumes up to two stars and
fails if a third star blocks `[^\s*]+` (backtracking cannot recover because
shorter star-prefixes still face a star), `([^\s*]+)` is a maximal run, the
optional `(?:\*\*)` is taken exactly when the next two characters are `**`,
and the lazy `(.*?)$` is forced to take the whole remainder. -/
def parseMainEntry (line : List Char) : Option (List Char × List Char) :=
  match line.dropWhile isPySpace with
  | [] => none
  | b :: r1 =>
    if b == '-' || b == '•' then
      match r1.takeWhile isPySpace with
      | [] => none
      | _ :: _ =>
        let r2 := r1.dropWhile isPySpace
        let stars := r2.takeWhile (fun c => c == '*')
        if stars.length > 2 then none
        else
          let r3 := r2.dropWhile (fun c => c == '*')
          let g1 := r3.takeWhile (fun c => !(isPySpace c) && !(c == '*'))
          if g1.isEmpty then none
          else
            let r4 := r3.drop g1.length
            some (g1, if List.isPrefixOf ['*', '*'] r4 then r4.drop 2 else r4)
    else none

/-- `word_matches` (`nor.py` 110-124): dispatch on `@` markers in the
search term, otherwise exact-or-prefix match, always on the normalized
headword, case-insensitively.  Python slices `s[1:-1]`, `s[1:]`, `s[:-1]`
become `drop`/`dropLast`. -/
def word_matches (head term : List Char) : Bool :=
  let nh := normalize_headword head
  if pyStartsWithB term ['@'] && pyEndsWithB term ['@'] then
    listContains (pyLower ((term.drop 1).dropLast)) (pyLower nh)
  else if pyStartsWithB term ['@'] then
    listContains (pyLower (term.drop 1)) (pyLower nh)
  else if pyEndsWithB term ['@'] then
    pyStartsWithB (pyLower nh) (pyLower term.dropLast)
  else
    pyLower nh == pyLower term || pyStartsWithB (pyLower nh) (pyLower term)

/-- Exact-match test of `search_dictionary` (`nor.py` 231): the line parses
as a main entry and `normalize_headword(head).lower() == term.lower()`. -/
def exactPred (term line : List Char) : Bool :=
  match parseMainEntry line with
  | some (h, _) => pyLower (normalize_headword (pyStripStar h)) == pyLower term
  | none => false

/-- Prefix-match test of `search_dictionary` (`nor.py` 234): reached only
when the exact test failed (`elif`), then
`normalize_headword(head).lower().startswith(term.lower())`. -/
def partialPred (term line : List Char) : Bool :=
  match parseMainEntry line with
  | some (h, _) =>
    let nh := pyLower (normalize_headword (pyStripStar h))
    !(nh == pyLower term) && pyStartsWithB nh (pyLower term)
  | none => false

/-- Wildcard test of `search_dictionary` (`nor.py` 227):
`word_matches(head_term, search_term)` on a parsed main-entry line. -/
def wildPred (term line : List Char) : Bool :=
  match parseMainEntry line with
  | some (h, _) => word_matches (pyStripStar h) term
  | none => false

/-- Result selection of `search_dictionary` (`nor.py` 212-251) after the
`%` dispatch (a `%`-prefixed term goes to `fulltext_search` instead and is
modelled separately): collect exact and prefix matches over the enumerated
lines, then `matches_to_print` is the wildcard matches when the term
contains `@`, else the exact matches when nonempty, else the prefix
matches when nonempty and `fallback` holds, else empty. -/
def search_matches (lines : List (List Char)) (term : List Char)
    (fallback : Bool) : List (Nat × List Char) :=
  if term.elem '@' then (lines.enum).filter (fun p => wildPred term p.2)
  else
    let ex := (lines.enum).filter (fun p => exactPred term p.2)
    if ex.isEmpty then
      let pa := (lines.enum).filter (fun p => partialPred term p.2)
      if !pa.isEmpty && fallback then pa else []
    else ex

/-- `search_dictionary` reads the prefix-fallback option with
`settings.get('fallback_to_prefix', False)` (`nor.py` 243): an absent
option is read as `False`. -/
def search_matches_opt (lines : List (List Char)) (term : List Char)
    (fbOpt : Option Bool) : List (Nat × List Char) :=
  search_matches lines term (fbOpt.getD false)

/-- The sub-entry regex `^\s{2,3}\*\*` (`nor.py` 437, 531) applied with
`re.match`: two or three whitespace characters followed by `**` (the
greedy `{2,3}` backtracks from three to two when needed, so either
alternative matching suffices). -/
def isSubentryLine : List Char → Bool
  | a :: b :: rest =>
    isPySpace a && isPySpace b &&
      (match rest with
       | c :: rest2 =>
         List.isPrefixOf ['*', '*'] rest ||
           (isPySpace c && List.isPrefixOf ['*', '*'] rest2)
       | [] => false)
  | _ => false

/-- Suffix after the first `*` of a list, if any (the close of a lazy
`\*(.*?)\*`: the lazy group ends at the first later `*`). -/
def splitAtFirstStar : List Char → Option (List Char)
  | [] => none
  | c :: rest => if c == '*' then some rest else splitAtFirstStar rest

/-- Suffix after the first `**` of a list, if any (the close of a lazy
`\*\*(.*?)\*\*`). -/
def splitAtFirst2Star : List Char → Option (List Char)
  | [] => none
  | c :: rest =>
    if c == '*' && rest.head? == some '*' then some rest.tail
    else splitAtFirst2Star rest

/-- `re.sub(r'\*\*(.*?)\*\*', '', text)` (`nor.py` 552, 584): delete every
leftmost non-overlapping `**…**` region (lazy inner part, so the close is
the first later `**`); on a failed open the scan advances one character,
exactly as `re.sub` does.  Fuel-indexed for structural recursion; fuel
`text.length` always suffices because each step consumes at least one
character, and exhausted fuel returns the remainder unchanged. -/
def removeBoldFuel : Nat → List Char → List Char
  | 0, l => l
  | _ + 1, [] => []
  | fuel + 1, c :: rest =>
    if c == '*' && rest.head? == some '*' then
      match splitAtFirst2Star rest.tail with
      | some after => removeBoldFuel fuel after
      | none => c :: removeBoldFuel fuel rest
    else c :: removeBoldFuel fuel rest

/-- `re.sub(r'\*\*(.*?)\*\*', '', text)` at adequate fuel. -/
def removeBold (l : List Char) : List Char := removeBoldFuel l.length l

/-- `re.sub(r'\*(.*?)\*', '', text)` (`nor.py` 553, 585), same scheme with
single-star delimiters. -/
def removeItalicFuel : Nat → List Char → List Char
  | 0, l => l
  | _ + 1, [] => []
  | fuel + 1, c :: rest =>
    if c == '*' then
      match splitAtFirstStar rest with
      | some after => removeItalicFuel fuel after
      | none => c :: removeItalicFuel fuel rest
    else c :: removeItalicFuel fuel rest

/-- `re.sub(r'\*(.*?)\*', '', text)` at adequate fuel. -/
def removeItalic (l : List Char) : List Char := removeItalicFuel l.length l

/-- Whether two adjacent `*` occur anywhere (no `**` ⇒ the bold-removal
regex finds no match). -/
def hasDoubleStar : List Char → Bool
  | [] => false
  | c :: rest => (c == '*' && rest.head? == some '*') || hasDoubleStar rest

/-- The zero-width `\b` between an optional previous and next character:
exactly one side is a word character. -/
def boundaryB (prev next : Option Char) : Bool :=
  (match prev with | some c => isWordChar c | none => false) !=
    (match next with | some c => isWordChar c | none => false)

/-- One anchored trial of `\b term \b` at the current position, `prev`
being the character just before the position. -/
def wordAt (term text : List Char) (prev : Option Char) : Bool :=
  term.isPrefixOf text && boundaryB prev text.head? &&
    (match term.getLast? with
     | none => boundaryB prev text.head?
     | some c => boundaryB (some c) ((text.drop term.length).head?))

/-- `re.search` of `\b + re.escape(term) + \b` (`nor.py` 538, 556, 587):
try every position left to right. -/
def wordSearchFrom (term : List Char) : Option Char → List Char → Bool
  | prev, [] => wordAt term [] prev
  | prev, c :: rest => wordAt term (c :: rest) prev || wordSearchFrom term (some c) rest

/-- Whole-word search of `term` in `text` (both already lowercased by the
callers, matching the source). -/
def wordSearch (term text : List Char) : Bool := wordSearchFrom term none text

/-- Main-entry test of `fulltext_search` (`nor.py` 452-455): the term is
compared case-insensitively against the head term and against the RAW
`rest_of_line` — the emphasis markup is still present in the compared
text. -/
def fulltext_main_match (term line : List Char) : Bool :=
  match parseMainEntry line with
  | some (h, rest) =>
    listContains (pyLower term) (pyLower (pyStripStar h)) ||
      listContains (pyLower term) (pyLower rest)
  | none => false

/-- Sub-entry test of `fulltext_search` (`nor.py` 486): the line matches
the sub-entry pattern and the term occurs in the RAW line
(case-insensitively). -/
def fulltext_sub_match (term line : List Char) : Bool :=
  isSubentryLine line && listContains (pyLower term) (pyLower line)

/-- Main-entry test of `english_search` (`nor.py` 550-556): bold and then
italic SPANS (delimiters and contents) are deleted from `rest_of_line`,
and the whole-word search runs on what is left, lowercased. -/
def english_entry_match (term line : List Char) : Bool :=
  match parseMainEntry line with
  | some (_, rest) =>
    wordSearch (pyLower term) (pyLower (removeItalic (removeBold rest)))
  | none => false

/-- Modelled from the spec (C1/C4 wording): the claimed comparison text,
"with only the emphasis delimiter characters removed (the words inside
bold/italic spans are kept)" — i.e. delete the `*` characters and nothing
else.  Used only to contrast the claims with the code. -/
def specDemarkOnly (l : List Char) : List Char := l.filter (fun c => !(c == '*'))

/-- Modelled from the spec (C1 wording): English-side whole-word matching
against the de-delimited (not de-worded) definition text. -/
def english_claim_match (term line : List Char) : Bool :=
  match parseMainEntry line with
  | some (_, rest) =>
    wordSearch (pyLower term) (pyLower (specDemarkOnly rest))
  | none => false

/-- Modelled from the spec (C4 wording): free-text matching against the
head term or the de-delimited body text. -/
def fulltext_claim_match (term line : List Char) : Bool :=
  match parseMainEntry line with
  | some (h, rest) =>
    listContains (pyLower term) (pyLower (pyStripStar h)) ||
      listContains (pyLower term) (pyLower (specDemarkOnly rest))
  | none => false

/-- A concrete line used by several witnesses. -/
def lineHus : List Char := ("- **hus** house").data

/-- A second concrete line (prefix match for "hus"). -/
def lineHusmor : List Char := ("- **husmor** housewife").data

/-- A blank line in the sense of Python `line.strip() == ''`. -/
def isBlankLine (l : List Char) : Bool := l.all isPySpace

/-- `re.match(r'^[-•]\s+', line)` (`nor.py` 297): bullet then at least one
whitespace character. -/
def isMainBulletL : List Char → Bool
  | b :: c :: _ => (b == '-' || b == '•') && isPySpace c
  | _ => false

/-- `re.match(r'^\s{3}[-•]\s+', line)` (`nor.py` 297): exactly three
whitespace characters, a bullet, then whitespace. -/
def isIndentBulletL : List Char → Bool
  | a :: b :: c :: d :: e :: _ =>
    isPySpace a && isPySpace b && isPySpace c && (d == '-' || d == '•') &&
      isPySpace e
  | _ => false

/-- Sub-entry block of `search_dictionary`'s display walk (`nor.py`
294-310): take following lines until a bullet line (that is not an
indented bullet line) or a blank line. -/
def subLinesSearch : List (List Char) → List (List Char)
  | [] => []
  | l :: rest =>
    if isMainBulletL l && !(isIndentBulletL l) then []
    else if isBlankLine l then []
    else l :: subLinesSearch rest

/-- Entry-line grouping of `list_category` / `get_random_words` /
`run_flashcards` (`nor.py` 997-1005, 1081-1089, 1189-1197): collect
indices of non-blank lines until the next `^- ` line; blank lines are
skipped but do NOT stop the walk. -/
def catSubIdx : Nat → List (List Char) → List Nat
  | _, [] => []
  | j, l :: rest =>
    if pyStartsWithB l (("- ").data) then []
    else if !(isBlankLine l) then j :: catSubIdx (j + 1) rest
    else catSubIdx (j + 1) rest

/-- `re.search(r'\*\*([^*]+)\*\*', line)` group 1 (`nor.py` 964, 1079,
1154, 1187): leftmost `**`, a non-empty star-free run, then `**`; on
failure the scan advances one character. -/
def findBoldGroup : List Char → Option (List Char)
  | [] => none
  | [_] => none
  | a :: b :: rest =>
    if a == '*' && b == '*' then
      if !((rest.takeWhile (fun c => !(c == '*'))).isEmpty) &&
          List.isPrefixOf ['*', '*']
            (rest.drop (rest.takeWhile (fun c => !(c == '*'))).length) then
        some (rest.takeWhile (fun c => !(c == '*')))
      else findBoldGroup (b :: rest)
    else findBoldGroup (b :: rest)

/-- `re.search(r'\*subst\.\s*g\*', line)` for a gender marker `g`
(`nor.py` 971-977): scan for the literal `*subst.`, greedy whitespace,
then `g` and a closing `*`. -/
def substGenderHit (g : List Char) : List Char → Bool
  | [] => false
  | c :: rest =>
    (List.isPrefixOf (("*subst.").data) (c :: rest) &&
      List.isPrefixOf (g ++ ['*']) (((c :: rest).drop 7).dropWhile isPySpace)) ||
      substGenderHit g rest

/-- The four raw pattern STRINGS the source's `u` branch tests with plain
substring containment (`nor.py` 986-987) — they contain literal
backslashes, so they are compared as the nine-character texts
`\*subst\.` etc., kept faithfully. -/
def rawTagLits : List (List Char) :=
  [("\\*subst\\.").data, ("\\*adj\\.").data, ("\\*verb\\*").data,
    ("\\*adv\\.").data]

/-- The raw gender pattern strings of the `w` branch (`nor.py` 991-993),
likewise compared as literal text. -/
def rawGenderLits : List (List Char) :=
  [("\\*subst\\.\\s*m\\*").data, ("\\*subst\\.\\s*f\\*").data,
    ("\\*subst\\.\\s*m/f\\*").data, ("\\*subst\\.\\s*n\\*").data]

/-- Category test per main-entry line (`nor.py` 969-994) for the nine
non-random category codes. -/
def catLineTag (cat : String) (line : List Char) : Bool :=
  match cat with
  | "m" => substGenderHit (("m").data) line
  | "f" => substGenderHit (("f").data) line
  | "c" => substGenderHit (("m/f").data) line
  | "n" => substGenderHit (("n").data) line
  | "adj" => listContains (("*adj.*").data) line
  | "v" => listContains (("*verb*").data) line
  | "adv" => listContains (("*adv.*").data) line
  | "u" => !(rawTagLits.any (fun p => listContains p line))
  | "w" => listContains (("*subst.*").data) line &&
      !(rawGenderLits.any (fun p => listContains p line))
  | _ => false

/-- Match collection of `list_category` (`nor.py` 961-1007), non-random:
each `^- ` line with a bold-group headword passing the category test
contributes `(headword.lower(), its entry line indices)`. -/
def listCatCollect (cat : String) : Nat → List (List Char) → List (List Char × List Nat)
  | _, [] => []
  | i, l :: rest =>
    if pyStartsWithB l (("- ").data) then
      match findBoldGroup l with
      | some w =>
        if catLineTag cat l then
          (pyLower w, i :: catSubIdx (i + 1) rest) ::
            listCatCollect cat (i + 1) rest
        else listCatCollect cat (i + 1) rest
      | none => listCatCollect cat (i + 1) rest
    else listCatCollect cat (i + 1) rest

/-- One character of the sort-key substitution (`nor.py` 1023-1026):
`æ → "zz1"`, `ø → "zz2"`, `å → "zz3"`.  The sequential `str.replace`
calls of the source equal this character-wise substitution because the
targets are single characters and the replacements introduce none of
them. -/
def substKeyChar (c : Char) : List Char :=
  if c == 'æ' then ['z', 'z', '1']
  else if c == 'ø' then ['z', 'z', '2']
  else if c == 'å' then ['z', 'z', '3']
  else [c]

/-- The sort key of `list_category` on the (already lowercased) stored
headword. -/
def sortKeyStr (w : List Char) : List Char := (w.map substKeyChar).flatten

/-- Lexicographic comparison by code point — Python string `<=`. -/
def lexLe : List Char → List Char → Bool
  | [], _ => true
  | _ :: _, [] => false
  | a :: l1, b :: l2 => if a < b then true else if b < a then false else lexLe l1 l2

/-- Stable insertion: the new element goes after every accumulated
element `y` with `le y x`. -/
def insLe {α : Type} (le : α → α → Bool) (x : α) : List α → List α
  | [] => [x]
  | y :: ys => if le y x then y :: insLe le x ys else x :: y :: ys

/-- Stable ascending insertion sort.  For a total preorder `le` a stable
ascending sort has a unique output, so this equals the output of Python's
(stable) `list.sort`. -/
def sortLe {α : Type} (le : α → α → Bool) (l : List α) : List α :=
  l.foldl (fun acc x => insLe le x acc) []

/-- `list_category` for a non-random category (`nor.py` 940-1027):
collect the matches in document order, then sort by the substituted key
on the lowercased headword (`matches.sort(key=...)`). -/
def listCat (lines : List (List Char)) (cat : String) : List (List Char × List Nat) :=
  sortLe (fun a b => lexLe (sortKeyStr a.1) (sortKeyStr b.1))
    (listCatCollect cat 0 lines)

/-- Concrete line for the C2 failing input. -/
def lineSubstN : List Char := ("- **hus** *subst. n* house").data

/-- Concrete document for the C6 counterexample: a blank line inside an
entry's trailing block. -/
def doc6 : List (List Char) :=
  [("- **hus** *verb* build").data, ("   **a** y").data, ("").data,
    ("   **b** z").data]

/-- Concrete document for the C9 counterexample. -/
def doc9 : List (List Char) :=
  [("- **zzz** *verb* buzz").data, ("- **åa** *verb* small").data]

/-- Concrete document for the C9 witness. -/
def doc9w : List (List Char) :=
  [("- **zebra** *verb* stripes").data, ("- **åa** *verb* small").data]

end Nordic

namespace Nordic

/-- C8: `normalize_headword` is total (a Lean function over all character
lists), its output contains no superscript digit, and it is idempotent. -/
theorem C8_normalize_idempotent_total :
    ∀ s : List Char,
      (normalize_headword s).all (fun c => !(isSupDigit c)) = true ∧
      normalize_headword (normalize_headword s) = normalize_headword s := by
  intro s
  constructor
  · simp only [normalize_headword, List.all_eq_true]
    intro c hc
    exact (List.mem_filter.mp hc).2
  · simp [normalize_headword, List.filter_filter]

/-- An exact match excludes a simultaneous (proper-)prefix classification:
the source's `elif` at `nor.py` 231/234 makes the two tests mutually
exclusive per line. -/
theorem partialPred_of_exactPred {term line : List Char}
    (h : exactPred term line = true) : partialPred term line = false := by
  unfold exactPred at h
  unfold partialPred
  cases hp : parseMainEntry line with
  | none => rfl
  | some pr =>
    obtain ⟨a, b⟩ := pr
    rw [hp] at h
    dsimp only at h ⊢
    simp only [h, Bool.not_true, Bool.false_and]

/-- C5: in Exact/Prefix mode (term without `@`; a `%`-term never reaches
this code path), when at least one line is an exact match, the result is
exactly the document-order filter of exact matches, every returned line is
an exact match, and no line that is merely a proper-prefix match is
returned. -/
theorem C5_exact_match_wins :
    ∀ (lines : List (List Char)) (term : List Char) (fb : Bool),
      term.elem '@' = false →
      (lines.enum).filter (fun p => exactPred term p.2) ≠ [] →
      search_matches lines term fb =
        (lines.enum).filter (fun p => exactPred term p.2) ∧
      ∀ p ∈ search_matches lines term fb,
        exactPred term p.2 = true ∧ partialPred term p.2 = false := by
  intro lines term fb hat hne
  have hres : search_matches lines term fb =
      (lines.enum).filter (fun p => exactPred term p.2) := by
    unfold search_matches
    simp only [hat, Bool.false_eq_true, if_false]
    have : ((lines.enum).filter (fun p => exactPred term p.2)).isEmpty = false := by
      cases hcase : (lines.enum).filter (fun p => exactPred term p.2) with
      | nil => exact absurd hcase hne
      | cons a l => rfl
    simp [this]
  refine ⟨hres, ?_⟩
  intro p hp
  rw [hres] at hp
  have hx := (List.mem_filter.mp hp).2
  exact ⟨hx, partialPred_of_exactPred hx⟩

/-- C7: substring (wildcard) search `@abc@` returns a line iff it is a
main-entry line whose normalized headword contains `abc`
case-insensitively; the result is the document-order filter. -/
theorem C7_substring_iff :
    ∀ (lines : List (List Char)) (abc : List Char) (fb : Bool) (i : Nat)
      (l : List Char),
      abc ≠ [] →
      ((i, l) ∈ search_matches lines ('@' :: (abc ++ ['@'])) fb ↔
        ((i, l) ∈ lines.enum ∧ ∃ h rest, parseMainEntry l = some (h, rest) ∧
          listContains (pyLower abc)
            (pyLower (normalize_headword (pyStripStar h))) = true)) := by
  intro lines abc fb i l _habc
  have hat : ('@' :: (abc ++ ['@'])).elem '@' = true :=
    List.elem_iff.mpr (List.mem_cons_self _ _)
  have hstart : pyStartsWithB ('@' :: (abc ++ ['@'])) ['@'] = true := by
    simp [pyStartsWithB, List.isPrefixOf]
  have hend : pyEndsWithB ('@' :: (abc ++ ['@'])) ['@'] = true := by
    simp [pyEndsWithB, List.isPrefixOf, List.reverse_append]
  have hslice : ((('@' :: (abc ++ ['@'])).drop 1).dropLast) = abc := by
    simp
  have hwild : ∀ line, wildPred ('@' :: (abc ++ ['@'])) line = true ↔
      (∃ h rest, parseMainEntry line = some (h, rest) ∧
        listContains (pyLower abc)
          (pyLower (normalize_headword (pyStripStar h))) = true) := by
    intro line
    unfold wildPred
    cases hp : parseMainEntry line with
    | none =>
      simp only [Bool.false_eq_true, false_iff]
      rintro ⟨h, rest, hsome, -⟩
      exact Option.noConfusion hsome
    | some pr =>
      obtain ⟨h, rest⟩ := pr
      unfold word_matches
      rw [hstart, hend, hslice]
      simp only [Bool.and_self, if_true, true_and]
      constructor
      · intro hc
        exact ⟨h, rest, rfl, hc⟩
      · rintro ⟨h', rest', hsome, hc⟩
        obtain ⟨e1, -⟩ := Prod.ext_iff.mp (Option.some.inj hsome)
        subst e1
        exact hc
  unfold search_matches
  simp only [hat, if_true]
  rw [List.mem_filter]
  exact and_congr_right (fun _ => hwild l)

/-- C5 witness at a concrete document and term. -/
theorem C5_witness :
    search_matches [lineHus, lineHusmor] (("hus").data) false =
      ([lineHus, lineHusmor].enum).filter
        (fun p => exactPred (("hus").data) p.2) :=
  (C5_exact_match_wins [lineHus, lineHusmor] (("hus").data) false
    (by decide) (by decide)).1

/-- C7 witness at a concrete document and term. -/
theorem C7_witness :
    (0, lineHus) ∈ search_matches [lineHus] ('@' :: ((("us").data) ++ ['@'])) false :=
  (C7_substring_iff [lineHus] (("us").data) false 0 lineHus (by decide)).mpr
    ⟨by decide, ("hus").data, (" house").data, by decide, by decide⟩

/-- C3 counterexample: with a document holding only a prefix match for the
term and a configuration bag that lacks `fallback_to_prefix`, the search
returns the empty result, not the prefix matches — the option defaults to
`False` (`nor.py` 243), not `True` as claimed. -/
theorem C3_counterexample :
    search_matches_opt [lineHusmor] (("hus" ++ "m").data) none = [] ∧
    ([lineHusmor].enum).filter (fun p => partialPred (("hus" ++ "m").data) p.2) ≠ [] := by
  decide

/-- C3 (amended): an absent `fallback_to_prefix` option defaults to
`False`: with no exact matches the result is empty even when prefix
matches exist; the prefix fallback runs only when the option is present
and true. -/
theorem C3_fallback_default_false :
    ∀ (lines : List (List Char)) (term : List Char),
      term.elem '@' = false →
      (lines.enum).filter (fun p => exactPred term p.2) = [] →
      search_matches_opt lines term none = [] ∧
      ((lines.enum).filter (fun p => partialPred term p.2) ≠ [] →
        search_matches_opt lines term (some true) =
          (lines.enum).filter (fun p => partialPred term p.2)) := by
  intro lines term hat hex
  unfold search_matches_opt search_matches
  simp only [hat, Bool.false_eq_true, if_false, hex, Option.getD_some,
    Option.getD_none, List.isEmpty_nil, if_true, Bool.and_false,
    Bool.and_true]
  constructor
  · trivial
  · intro hpa
    have : ((lines.enum).filter (fun p => partialPred term p.2)).isEmpty = false := by
      cases hcase : (lines.enum).filter (fun p => partialPred term p.2) with
      | nil => exact absurd hcase hpa
      | cons a l => rfl
    simp [this]

/-- C3 witness for the amended claim at a concrete document and term. -/
theorem C3_witness :
    search_matches_opt [lineHusmor] (("hus" ++ "m").data) none = [] :=
  (C3_fallback_default_false [lineHusmor] (("hus" ++ "m").data)
    (by decide) (by decide)).1

/-- Star-free segments are copied unchanged past `hasDoubleStar`. -/
theorem hasDoubleStar_append (l r : List Char) (h : ∀ c ∈ l, c ≠ '*') :
    hasDoubleStar (l ++ r) = hasDoubleStar r := by
  induction l with
  | nil => rfl
  | cons c l ih =>
    have hc : (c == '*') = false :=
      beq_eq_false_iff_ne.mpr (h c (List.mem_cons_self c l))
    simp only [List.cons_append, hasDoubleStar, hc, Bool.false_and,
      Bool.false_or]
    exact ih (fun x hx => h x (List.mem_cons_of_mem c hx))

/-- A star-free list has no double star. -/
theorem hasDoubleStar_of_noStar (l : List Char) (h : ∀ c ∈ l, c ≠ '*') :
    hasDoubleStar l = false := by
  have := hasDoubleStar_append l [] h
  rw [List.append_nil] at this
  rw [this]
  rfl

/-- Without a `**` anywhere, the bold-removal pass is the identity (at any
fuel). -/
theorem removeBoldFuel_id (f : Nat) :
    ∀ l : List Char, hasDoubleStar l = false → removeBoldFuel f l = l := by
  induction f with
  | zero => intro l _; rfl
  | succ f ih =>
    intro l hl
    cases l with
    | nil => rfl
    | cons c rest =>
      have hcond : (c == '*' && rest.head? == some '*') = false := by
        unfold hasDoubleStar at hl
        exact (Bool.or_eq_false_iff.mp hl).1
      have hrest : hasDoubleStar rest = false := by
        unfold hasDoubleStar at hl
        exact (Bool.or_eq_false_iff.mp hl).2
      simp only [removeBoldFuel, hcond, Bool.false_eq_true, if_false]
      rw [ih rest hrest]

/-- The double-star test on the one-italic-span shape used by C1. -/
theorem hasDoubleStar_span (pre mid post : List Char)
    (hpre : ∀ c ∈ pre, c ≠ '*') (hmid : ∀ c ∈ mid, c ≠ '*')
    (hpost : ∀ c ∈ post, c ≠ '*') (hmid0 : mid ≠ []) :
    hasDoubleStar (pre ++ '*' :: (mid ++ '*' :: post)) = false := by
  rw [hasDoubleStar_append pre _ hpre]
  cases mid with
  | nil => exact absurd rfl hmid0
  | cons m0 mid' =>
    have hm0 : (m0 == '*') = false :=
      beq_eq_false_iff_ne.mpr (hmid m0 (List.mem_cons_self m0 mid'))
    have hmid' : ∀ c ∈ mid', c ≠ '*' :=
      fun x hx => hmid x (List.mem_cons_of_mem m0 hx)
    simp only [hasDoubleStar, List.cons_append, List.head?_cons,
      Option.some.injEq, List.append_eq]
    rw [show ((some m0 == some '*') = (m0 == '*')) from rfl]
    simp only [hm0, Bool.false_and, Bool.false_or]
    rw [hasDoubleStar_append mid' _ hmid']
    cases post with
    | nil => rfl
    | cons p0 post' =>
      have hp0 : (p0 == '*') = false :=
        beq_eq_false_iff_ne.mpr (hpost p0 (List.mem_cons_self p0 post'))
      simp only [hasDoubleStar, List.head?_cons]
      rw [show ((some p0 == some '*') = (p0 == '*')) from rfl]
      simp only [hp0, Bool.and_false, Bool.false_or, Bool.false_eq]
      exact hasDoubleStar_of_noStar _
        (fun x hx => hpost x (List.mem_cons_of_mem p0 hx))

/-- The first lone `*` after a star-free segment is found there. -/
theorem splitAtFirstStar_span (mid r : List Char)
    (hmid : ∀ c ∈ mid, c ≠ '*') :
    splitAtFirstStar (mid ++ '*' :: r) = some r := by
  induction mid with
  | nil => rfl
  | cons m0 mid' ih =>
    have hm0 : (m0 == '*') = false :=
      beq_eq_false_iff_ne.mpr (hmid m0 (List.mem_cons_self m0 mid'))
    simp only [List.cons_append, splitAtFirstStar, hm0, Bool.false_eq_true,
      if_false]
    exact ih (fun x hx => hmid x (List.mem_cons_of_mem m0 hx))

/-- Star-free text is left alone by the italic-removal pass (any fuel). -/
theorem removeItalicFuel_id (f : Nat) :
    ∀ l : List Char, (∀ c ∈ l, c ≠ '*') → removeItalicFuel f l = l := by
  induction f with
  | zero => intro l _; rfl
  | succ f ih =>
    intro l hl
    cases l with
    | nil => rfl
    | cons c rest =>
      have hc : (c == '*') = false :=
        beq_eq_false_iff_ne.mpr (hl c (List.mem_cons_self c rest))
      simp only [removeItalicFuel, hc, Bool.false_eq_true, if_false]
      rw [ih rest (fun x hx => hl x (List.mem_cons_of_mem c hx))]

/-- A star-free segment passes through the italic-removal pass and the
fuel accounts for it. -/
theorem removeItalicFuel_append (l : List Char) (h : ∀ c ∈ l, c ≠ '*') :
    ∀ (f : Nat) (r : List Char),
      removeItalicFuel (f + l.length) (l ++ r) = l ++ removeItalicFuel f r := by
  induction l with
  | nil => intro f r; simp
  | cons c l' ih =>
    intro f r
    have hc : (c == '*') = false :=
      beq_eq_false_iff_ne.mpr (h c (List.mem_cons_self c l'))
    have hlen : f + (c :: l').length = (f + l'.length) + 1 := by
      simp [List.length_cons]
      ring
    rw [hlen]
    simp only [List.cons_append, removeItalicFuel, hc, Bool.false_eq_true,
      if_false, List.append_eq]
    rw [ih (fun x hx => h x (List.mem_cons_of_mem c hx)) f r]

/-- Italic removal on a single well-delimited span deletes delimiters AND
contents. -/
theorem removeItalic_span (pre mid post : List Char)
    (hpre : ∀ c ∈ pre, c ≠ '*') (hmid : ∀ c ∈ mid, c ≠ '*')
    (hpost : ∀ c ∈ post, c ≠ '*') :
    removeItalic (pre ++ '*' :: (mid ++ '*' :: post)) = pre ++ post := by
  unfold removeItalic
  have hlen : (pre ++ '*' :: (mid ++ '*' :: post)).length =
      ((mid.length + post.length + 2) + pre.length) := by
    simp [List.length_append, List.length_cons]
    ring
  rw [hlen, removeItalicFuel_append pre hpre (mid.length + post.length + 2)]
  have hstep : removeItalicFuel (mid.length + post.length + 2)
      ('*' :: (mid ++ '*' :: post)) = post := by
    have h2 : mid.length + post.length + 2 = (mid.length + post.length + 1) + 1 := rfl
    rw [h2]
    simp only [removeItalicFuel, beq_self_eq_true, if_true,
      splitAtFirstStar_span mid post hmid]
    exact removeItalicFuel_id _ post hpost
  rw [hstep]

/-- C1 counterexample: for the definition "a *formal* greeting" and the
search word "formal", the English-side test of the code does NOT match
(the italic span is removed wholesale), while the comparison text claimed
by the spec (delimiters removed, words kept) does match. -/
theorem C1_counterexample :
    english_entry_match (("formal").data) (("- **hei** a *formal* greeting").data) = false ∧
    english_claim_match (("formal").data) (("- **hei** a *formal* greeting").data) = true := by
  decide

/-- C1 (amended): the English-side whole-word match is evaluated against
the definition text with the emphasis spans removed WHOLESALE (delimiters
and span contents both deleted): for a definition whose remainder carries
one italic span, a word that does not whole-word-occur in the surrounding
text is not matched, even when it occurs inside the span. -/
theorem C1_english_spans_removed :
    ∀ (term line h pre mid post : List Char),
      parseMainEntry line = some (h, pre ++ '*' :: (mid ++ '*' :: post)) →
      (∀ c ∈ pre, c ≠ '*') → (∀ c ∈ mid, c ≠ '*') → (∀ c ∈ post, c ≠ '*') →
      mid ≠ [] →
      wordSearch (pyLower term) (pyLower (pre ++ post)) = false →
      english_entry_match term line = false := by
  intro term line h pre mid post hp hpre hmid hpost hmid0 hw
  unfold english_entry_match
  rw [hp]
  dsimp only
  have hbold : removeBold (pre ++ '*' :: (mid ++ '*' :: post)) =
      pre ++ '*' :: (mid ++ '*' :: post) := by
    unfold removeBold
    exact removeBoldFuel_id _ _ (hasDoubleStar_span pre mid post hpre hmid hpost hmid0)
  rw [hbold, removeItalic_span pre mid post hpre hmid hpost]
  exact hw

/-- C1 witness at the concrete definition of the claim. -/
theorem C1_witness :
    english_entry_match (("formal").data) (("- **hei** a *formal* greeting").data) = false :=
  C1_english_spans_removed (("formal").data)
    (("- **hei** a *formal* greeting").data) (("hei").data)
    ((" a ").data) (("formal").data) ((" greeting").data)
    (by decide) (by decide) (by decide) (by decide) (by decide) (by decide)

/-- C4 counterexample: free-text search compares against the RAW
marked-up text.  The term "formal greeting" occurs in the de-delimited
body of "a *formal* greeting" (so the claim says it matches) but the code
does not match it; and the term "*formal*" — which contains delimiter
characters — DOES match literally, though the claim says asterisks are
never matched as literal text. -/
theorem C4_counterexample :
    fulltext_main_match (("formal greeting").data)
      (("- **hei** a *formal* greeting").data) = false ∧
    fulltext_claim_match (("formal greeting").data)
      (("- **hei** a *formal* greeting").data) = true ∧
    fulltext_main_match (("*formal*").data)
      (("- **hei** a *formal* greeting").data) = true := by
  decide

/-- C4 (amended): free-text matching operates on the raw marked-up text:
an occurrence in the raw remainder (even one containing `*`) matches; a
term absent from the raw head and raw remainder does not match, even when
it occurs in the de-delimited text; sub-entry lines likewise match on the
raw line only. -/
theorem C4_fulltext_raw_comparison :
    ∀ (term line h rest : List Char),
      parseMainEntry line = some (h, rest) →
      (listContains (pyLower term) (pyLower rest) = true →
        fulltext_main_match term line = true) ∧
      (listContains (pyLower term) (pyLower (pyStripStar h)) = false →
        listContains (pyLower term) (pyLower rest) = false →
        fulltext_main_match term line = false) ∧
      (∀ sub : List Char, isSubentryLine sub = true →
        listContains (pyLower term) (pyLower sub) = false →
        fulltext_sub_match term sub = false) := by
  intro term line h rest hp
  unfold fulltext_main_match
  rw [hp]
  dsimp only
  refine ⟨?_, ?_, ?_⟩
  · intro hr
    rw [hr, Bool.or_true]
  · intro hh hr
    rw [hh, hr]
    rfl
  · intro sub _hsub hc
    unfold fulltext_sub_match
    rw [hc, Bool.and_false]

/-- C4 witness: an asterisk-containing term matches the raw body
literally. -/
theorem C4_witness :
    fulltext_main_match (("*formal*").data)
      (("- **hei** a *formal* greeting").data) = true :=
  (C4_fulltext_raw_comparison (("*formal*").data)
    (("- **hei** a *formal* greeting").data) (("hei").data)
    ((" a *formal* greeting").data) (by decide)).1 (by decide)

/-- `dropWhile` consumes a fully satisfying segment. -/
theorem dropWhile_app_all {p : Char → Bool} (l r : List Char)
    (h : ∀ c ∈ l, p c = true) : (l ++ r).dropWhile p = r.dropWhile p := by
  induction l with
  | nil => rfl
  | cons c l ih =>
    rw [List.cons_append, List.dropWhile_cons,
      if_pos (h c (List.mem_cons_self c l))]
    exact ih (fun x hx => h x (List.mem_cons_of_mem c hx))

/-- Members of a `takeWhile` satisfy the predicate. -/
theorem mem_takeWhile_pred (p : Char → Bool) :
    ∀ (l : List Char) (x : Char), x ∈ l.takeWhile p → p x = true := by
  intro l
  induction l with
  | nil => intro x hx; exact absurd hx (List.not_mem_nil x)
  | cons a l ih =>
    intro x hx
    rw [List.takeWhile_cons] at hx
    by_cases ha : p a = true
    · rw [if_pos ha] at hx
      rcases List.mem_cons.mp hx with rfl | hx
      · exact ha
      · exact ih x hx
    · rw [if_neg ha] at hx
      exact absurd hx (List.not_mem_nil x)

/-- The head surviving `dropWhile` fails the predicate. -/
theorem head_dropWhile_false (p : Char → Bool) :
    ∀ (l : List Char) {c : Char} {r : List Char},
      l.dropWhile p = c :: r → p c = false := by
  intro l
  induction l with
  | nil => intro c r h; exact List.noConfusion h
  | cons a l ih =>
    intro c r h
    rw [List.dropWhile_cons] at h
    by_cases ha : p a = true
    · rw [if_pos ha] at h
      exact ih h
    · rw [if_neg ha] at h
      obtain ⟨e1, -⟩ := List.cons.inj h
      rw [← e1]
      exact Bool.eq_false_iff.mpr ha

/-- Successful main-entry classification yields a star-free, non-empty
headword group. -/
theorem parse_some_head {line h rest : List Char}
    (hp : parseMainEntry line = some (h, rest)) :
    h ≠ [] ∧ ∀ c ∈ h, (!(isPySpace c) && !(c == '*')) = true := by
  unfold parseMainEntry at hp
  split at hp
  · exact Option.noConfusion hp
  · rename_i b r1
    split at hp
    · split at hp
      · exact Option.noConfusion hp
      · simp only [] at hp
        split at hp
        · exact Option.noConfusion hp
        · split at hp
          · exact Option.noConfusion hp
          · rename_i hne
            rw [Option.some.injEq, Prod.mk.injEq] at hp
            obtain ⟨e1, -⟩ := hp
            subst e1
            constructor
            · intro hnil
              rw [hnil] at hne
              exact hne rfl
            · intro c hc
              exact mem_takeWhile_pred _ _ c hc
    · exact Option.noConfusion hp

/-- C10: the line classifier is total and safe.  First: a line made of a
bullet surrounded only by whitespace and emphasis delimiters (no headword
token) is classified as non-matching.  Second: a successfully classified
main-entry line has a non-empty extracted headword, unchanged by the
`strip('*')` the source applies before indexing its first letter. -/
theorem C10_classifier_safe :
    (∀ (w1 : List Char) (b : Char) (w2 t : List Char),
      (∀ c ∈ w1, isPySpace c = true) → (b = '-' ∨ b = '•') →
      (∀ c ∈ w2, isPySpace c = true) →
      (∀ c ∈ t, (c == '*') = true ∨ isPySpace c = true) →
      parseMainEntry (w1 ++ b :: (w2 ++ t)) = none) ∧
    (∀ line h rest : List Char, parseMainEntry line = some (h, rest) →
      h ≠ [] ∧ pyStripStar h = h) := by
  constructor
  · intro w1 b w2 t h1 hb h2 h3
    unfold parseMainEntry
    have hbws : isPySpace b = false := by
      rcases hb with rfl | rfl <;> decide
    have hd : (w1 ++ b :: (w2 ++ t)).dropWhile isPySpace = b :: (w2 ++ t) := by
      rw [dropWhile_app_all w1 _ h1, List.dropWhile_cons, hbws]
      rfl
    rw [hd]
    have hbul : (b == '-' || b == '•') = true := by
      rcases hb with rfl | rfl <;> decide
    simp only [hbul, if_true]
    have hallwt : ∀ c ∈ (w2 ++ t), (c == '*') = true ∨ isPySpace c = true := by
      intro c hc
      rcases List.mem_append.mp hc with hc | hc
      · exact Or.inr (h2 c hc)
      · exact h3 c hc
    cases htw : (w2 ++ t).takeWhile isPySpace with
    | nil => rfl
    | cons x xs =>
      simp only []
      have hr2mem : ∀ c ∈ (w2 ++ t).dropWhile isPySpace,
          (c == '*') = true ∨ isPySpace c = true :=
        fun c hc => hallwt c ((List.dropWhile_sublist _).subset hc)
      split
      · rfl
      · have hr3mem : ∀ c ∈ (((w2 ++ t).dropWhile isPySpace).dropWhile
            (fun c => c == '*')), (c == '*') = true ∨ isPySpace c = true :=
          fun c hc => hr2mem c ((List.dropWhile_sublist _).subset hc)
        have hg1 : (((w2 ++ t).dropWhile isPySpace).dropWhile
            (fun c => c == '*')).takeWhile
              (fun c => !(isPySpace c) && !(c == '*')) = [] := by
          cases hr3 : ((w2 ++ t).dropWhile isPySpace).dropWhile
              (fun c => c == '*') with
          | nil => rfl
          | cons d ds =>
            have hdstar : (d == '*') = false :=
              head_dropWhile_false (fun c => c == '*') _ hr3
            have hdws : isPySpace d = true := by
              rcases hr3mem d (hr3 ▸ List.mem_cons_self d ds) with hst | hws
              · rw [hdstar] at hst
                exact Bool.noConfusion hst
              · exact hws
            rw [List.takeWhile_cons, hdws, hdstar]
            rfl
        rw [hg1]
        rfl
  · intro line h rest hp
    obtain ⟨hne, hmem⟩ := parse_some_head hp
    refine ⟨hne, ?_⟩
    have hstar : ∀ c ∈ h, (c == '*') = false := by
      intro c hc
      have hx := hmem c hc
      have hx2 : (!(c == '*')) = true := ((Bool.and_eq_true _ _).mp hx).2
      cases hcc : c == '*' with
      | false => rfl
      | true => rw [hcc] at hx2; exact Bool.noConfusion hx2
    have hdrop : ∀ l : List Char, (∀ c ∈ l, (c == '*') = false) →
        l.dropWhile (fun c => c == '*') = l := by
      intro l hl
      cases l with
      | nil => rfl
      | cons a l' =>
        rw [List.dropWhile_cons, hl a (List.mem_cons_self a l')]
        rfl
    unfold pyStripStar
    rw [hdrop h hstar]
    rw [hdrop h.reverse (fun c hc => hstar c (List.mem_reverse.mp hc))]
    exact List.reverse_reverse h

/-- C10 witness: a bullet followed by bare delimiters classifies as
non-matching, and a real entry's headword is non-empty. -/
theorem C10_witness :
    parseMainEntry (([] : List Char) ++ '-' :: (([' ']) ++ (("**").data))) = none ∧
    (("hus").data ≠ [] ∧ pyStripStar (("hus").data) = ("hus").data) :=
  ⟨C10_classifier_safe.1 [] '-' [' '] (("**").data) (by decide) (Or.inl rfl)
      (by decide) (by decide),
    C10_classifier_safe.2 (("- **hus** house").data) (("hus").data)
      ((" house").data) (by decide)⟩

/-- C2: code bug in category `u`.  At the failing input
`- **hus** *subst. n* house` the category-`u` listing RETURNS the entry —
the branch checks for the literal nine-character text `\*subst\.` (etc.)
with plain substring containment, which never occurs — although the noun
tag `*subst.` does occur on the line, so the claim (and the program's own
help text, "unidentified type words") says it must not be listed. -/
theorem C2_unidentified_code_bug :
    listCat [lineSubstN] ("u") = [((("hus").data), [0])] ∧
    listContains (("*subst.").data) lineSubstN = true := by
  decide

/-- C6 counterexample: in category listing (same grouping code as random
words and flashcards) the entry's attached lines are `[0, 1, 3]` although
line 2 — between lines 1 and 3 — is blank: a line after an intervening
blank line still belongs to the entry, contradicting the claim. -/
theorem C6_counterexample :
    listCat doc6 ("v") = [((("hus").data), [0, 1, 3])] ∧
    doc6.getD 2 (("x").data) = [] := by
  decide

/-- A main-bullet line is never an indented-bullet line (its first
character is a bullet, not whitespace). -/
theorem mainBullet_not_indent :
    ∀ l : List Char, isMainBulletL l = true → isIndentBulletL l = false := by
  intro l h
  cases l with
  | nil => exact Bool.noConfusion h
  | cons a t =>
    cases t with
    | nil => exact Bool.noConfusion h
    | cons b t2 =>
      have ha : (a == '-' || a == '•') = true := ((Bool.and_eq_true _ _).mp h).1
      have haw : isPySpace a = false := by
        rcases (Bool.or_eq_true _ _).mp ha with h1 | h1
        · rw [eq_of_beq h1]; decide
        · rw [eq_of_beq h1]; decide
      cases t2 with
      | nil => rfl
      | cons c t3 =>
        cases t3 with
        | nil => rfl
        | cons d t4 =>
          cases t4 with
          | nil => rfl
          | cons e t5 =>
            show (isPySpace a && isPySpace b && isPySpace c &&
              (d == '-' || d == '•') && isPySpace e) = false
            rw [haw]
            rfl

/-- C6 (amended): the two grouping routines differ.  The search display
walk attaches exactly the lines up to the first bullet line or blank
line; the category/random/flashcard walk attaches every NON-BLANK line up
to the next `- ` line, skipping (but not stopping at) blank lines. -/
theorem C6_grouping_characterization :
    (∀ rest : List (List Char),
      subLinesSearch rest =
        rest.takeWhile (fun l => !(isMainBulletL l) && !(isBlankLine l))) ∧
    (∀ (j : Nat) (rest : List (List Char)),
      catSubIdx j rest =
        ((rest.enumFrom j).takeWhile
            (fun p => !(pyStartsWithB p.2 (("- ").data)))).filterMap
          (fun p => if isBlankLine p.2 then none else some p.1)) := by
  constructor
  · intro rest
    induction rest with
    | nil => rfl
    | cons l rest ih =>
      rw [List.takeWhile_cons]
      unfold subLinesSearch
      cases hm : isMainBulletL l with
      | true =>
        rw [mainBullet_not_indent l hm]
        simp only [Bool.not_false, Bool.and_true, Bool.not_true,
          Bool.false_and, Bool.false_eq_true, if_false, if_true]
      | false =>
        simp only [Bool.not_false, Bool.false_and, Bool.false_eq_true,
          if_false, Bool.true_and]
        cases hb : isBlankLine l with
        | true => simp
        | false => simp [ih]
  · intro j rest
    induction rest generalizing j with
    | nil => rfl
    | cons l rest ih =>
      rw [List.enumFrom_cons, List.takeWhile_cons]
      unfold catSubIdx
      cases hs : pyStartsWithB l (("- ").data) with
      | true => simp
      | false =>
        simp only [Bool.not_false, if_true, List.filterMap_cons,
          Bool.false_eq_true, if_false]
        cases hb : isBlankLine l with
        | true => simp [ih]
        | false => simp [ih]

/-- C9 counterexample: with headwords `zzz` and `åa` (both verbs), the
category listing for `v` puts the `å`-entry FIRST: the sort key of `åa`
is `zz3a`, which precedes `zzz` lexicographically, so an entry headed `Å`
does not come after every entry headed `Z`. -/
theorem C9_counterexample :
    listCat doc9 ("v") = [((("åa").data), [1]), ((("zzz").data), [0])] := by
  decide

/-- `lexLe` is total. -/
theorem lexLe_total : ∀ a b : List Char, lexLe a b = true ∨ lexLe b a = true := by
  intro a
  induction a with
  | nil => intro b; exact Or.inl rfl
  | cons x xs ih =>
    intro b
    cases b with
    | nil => exact Or.inr rfl
    | cons y ys =>
      rcases lt_trichotomy x y with h | h | h
      · left; simp [lexLe, h]
      · subst h
        rcases ih ys with h2 | h2
        · left; simp [lexLe, lt_self_iff_false, h2]
        · right; simp [lexLe, lt_self_iff_false, h2]
      · right; simp [lexLe, h]

/-- `lexLe` is transitive. -/
theorem lexLe_trans :
    ∀ a b c : List Char, lexLe a b = true → lexLe b c = true →
      lexLe a c = true := by
  intro a
  induction a with
  | nil => intro b c _ _; rfl
  | cons x xs ih =>
    intro b c h1 h2
    cases b with
    | nil => exact Bool.noConfusion h1
    | cons y ys =>
      cases c with
      | nil => exact Bool.noConfusion h2
      | cons z zs =>
        rcases lt_trichotomy x y with hxy | hxy | hxy
        · rcases lt_trichotomy y z with hyz | hyz | hyz
          · simp [lexLe, lt_trans hxy hyz]
          · subst hyz; simp [lexLe, hxy]
          · exfalso
            simp [lexLe, asymm hyz, hyz] at h2
        · subst hxy
          rcases lt_trichotomy x z with hxz | hxz | hxz
          · simp [lexLe, hxz]
          · subst hxz
            simp only [lexLe, lt_self_iff_false, if_false] at h1 h2 ⊢
            exact ih ys zs h1 h2
          · exfalso
            simp [lexLe, asymm hxz, hxz] at h2
        · exfalso
          simp [lexLe, asymm hxy, hxy] at h1

/-- Members of a stable insertion. -/
theorem mem_insLe {α : Type} (le : α → α → Bool) (x z : α) :
    ∀ l : List α, z ∈ insLe le x l → z = x ∨ z ∈ l := by
  intro l
  induction l with
  | nil =>
    intro h
    exact Or.inl (List.mem_singleton.mp h)
  | cons y ys ih =>
    intro h
    unfold insLe at h
    by_cases hy : le y x = true
    · rw [if_pos hy] at h
      rcases List.mem_cons.mp h with rfl | h2
      · exact Or.inr (List.mem_cons_self _ _)
      · rcases ih h2 with h3 | h3
        · exact Or.inl h3
        · exact Or.inr (List.mem_cons_of_mem _ h3)
    · rw [if_neg hy] at h
      rcases List.mem_cons.mp h with rfl | h2
      · exact Or.inl rfl
      · exact Or.inr h2

/-- Stable insertion preserves pairwise ordering for a total transitive
comparison. -/
theorem pairwise_insLe {α : Type} (le : α → α → Bool)
    (htot : ∀ a b, le a b = true ∨ le b a = true)
    (htr : ∀ a b c, le a b = true → le b c = true → le a c = true)
    (x : α) :
    ∀ l : List α, l.Pairwise (fun a b => le a b = true) →
      (insLe le x l).Pairwise (fun a b => le a b = true) := by
  intro l
  induction l with
  | nil => intro _; exact List.pairwise_singleton _ _
  | cons y ys ih =>
    intro hp
    rw [List.pairwise_cons] at hp
    obtain ⟨hy, hys⟩ := hp
    unfold insLe
    by_cases hle : le y x = true
    · rw [if_pos hle, List.pairwise_cons]
      constructor
      · intro z hz
        rcases mem_insLe le x z ys hz with rfl | h2
        · exact hle
        · exact hy z h2
      · exact ih hys
    · rw [if_neg hle]
      have hxy : le x y = true := by
        rcases htot x y with h | h
        · exact h
        · exact absurd h hle
      rw [List.pairwise_cons]
      constructor
      · intro z hz
        rcases List.mem_cons.mp hz with rfl | h2
        · exact hxy
        · exact htr x y z hxy (hy z h2)
      · exact List.pairwise_cons.mpr ⟨hy, hys⟩

/-- The insertion sort produces a pairwise-ordered list. -/
theorem pairwise_sortLe {α : Type} (le : α → α → Bool)
    (htot : ∀ a b, le a b = true ∨ le b a = true)
    (htr : ∀ a b c, le a b = true → le b c = true → le a c = true)
    (l : List α) :
    (sortLe le l).Pairwise (fun a b => le a b = true) := by
  unfold sortLe
  suffices h : ∀ acc : List α, acc.Pairwise (fun a b => le a b = true) →
      (l.foldl (fun acc x => insLe le x acc) acc).Pairwise
        (fun a b => le a b = true) from h [] List.Pairwise.nil
  induction l with
  | nil => intro acc hacc; exact hacc
  | cons x xs ih =>
    intro acc hacc
    exact ih _ (pairwise_insLe le htot htr x acc hacc)

/-- The substituted key of an `å`-headed word. -/
theorem sortKeyStr_aring (t : List Char) :
    sortKeyStr ('å' :: t) = 'z' :: 'z' :: '3' :: sortKeyStr t := rfl

/-- The substituted key of a `z`-headed word whose second character is
below `z` (hence none of the three substituted letters). -/
theorem sortKeyStr_z_cons (c : Char) (t : List Char) (hc : c < 'z') :
    sortKeyStr ('z' :: c :: t) = 'z' :: c :: sortKeyStr t := by
  have hae : ¬ (c == 'æ') = true := fun h => absurd (eq_of_beq h ▸ hc) (by decide)
  have hoe : ¬ (c == 'ø') = true := fun h => absurd (eq_of_beq h ▸ hc) (by decide)
  have haa : ¬ (c == 'å') = true := fun h => absurd (eq_of_beq h ▸ hc) (by decide)
  have h2 : substKeyChar c = [c] := by
    unfold substKeyChar
    rw [if_neg hae, if_neg hoe, if_neg haa]
  show (substKeyChar 'z' ++ (substKeyChar c ++ ((t.map substKeyChar)).flatten) : List Char) = _
  rw [h2]
  rfl

/-- An `å`-key never compares `lexLe`-below a qualifying `z`-key. -/
theorem lexLe_key_false_cons (u v : List Char) (c : Char) (hc : c < 'z') :
    lexLe ('z' :: 'z' :: '3' :: u) ('z' :: c :: v) = false := by
  simp only [lexLe, lt_self_iff_false, if_false]
  rw [if_neg (asymm hc), if_pos hc]

/-- An `å`-key never compares `lexLe`-below the single key `z`. -/
theorem lexLe_key_false_nil (u : List Char) :
    lexLe ('z' :: 'z' :: '3' :: u) ['z'] = false := by
  simp only [lexLe, lt_self_iff_false, if_false]

/-- C9 (amended): the non-random category listing is sorted by the
substituted key (`æ→zz1`, `ø→zz2`, `å→zz3` on the lowercased headword);
an entry whose stored headword begins with `å` comes after every entry
whose stored headword is the single letter `z` or begins with `z`
followed by a character below `z` — the proviso the counterexample
(`zzz` before `åa` is false) forces: a `z`-headword continuing with `z`
or a higher code point can sort above the substituted `å`-key. -/
theorem C9_sorting_accented_after :
    ∀ (lines : List (List Char)) (cat : String) (i j : Nat)
      (hi : i < (listCat lines cat).length)
      (hj : j < (listCat lines cat).length),
      (∃ t, ((listCat lines cat).get ⟨i, hi⟩).1 = 'å' :: t) →
      ((∃ c t, ((listCat lines cat).get ⟨j, hj⟩).1 = 'z' :: c :: t ∧ c < 'z') ∨
        ((listCat lines cat).get ⟨j, hj⟩).1 = ['z']) →
      j < i := by
  intro lines cat i j hi hj ha hz
  by_contra hji
  push_neg at hji
  have hpw : (listCat lines cat).Pairwise
      (fun a b => lexLe (sortKeyStr a.1) (sortKeyStr b.1) = true) := by
    unfold listCat
    exact pairwise_sortLe
      (fun (a b : List Char × List Nat) =>
        lexLe (sortKeyStr a.1) (sortKeyStr b.1))
      (fun a b => lexLe_total _ _)
      (fun a b c h1 h2 => lexLe_trans _ _ _ h1 h2) _
  rcases Nat.lt_or_ge i j with hij | hij
  · have hrel := List.pairwise_iff_get.mp hpw ⟨i, hi⟩ ⟨j, hj⟩ hij
    obtain ⟨t, hti⟩ := ha
    rw [hti, sortKeyStr_aring] at hrel
    rcases hz with ⟨c, tz, htj, hc⟩ | htj
    · rw [htj, sortKeyStr_z_cons c tz hc, lexLe_key_false_cons _ _ c hc] at hrel
      exact Bool.noConfusion hrel
    · rw [htj, show sortKeyStr ['z'] = ['z'] from rfl,
        lexLe_key_false_nil] at hrel
      exact Bool.noConfusion hrel
  · have hij2 : i = j := Nat.le_antisymm hji hij
    subst hij2
    obtain ⟨t, hti⟩ := ha
    have hti' : ((listCat lines cat).get ⟨i, hj⟩).1 = 'å' :: t := hti
    rcases hz with ⟨c, tz, htj, -⟩ | htj
    · rw [hti'] at htj
      exact absurd (List.cons.inj htj).1 (by decide)
    · rw [hti'] at htj
      exact absurd (List.cons.inj htj).1 (by decide)

/-- C9 witness: `zebra` (second character `e` below `z`) precedes `åa` in
the `v` listing of a concrete document. -/
theorem C9_witness : (0 : Nat) < 1 :=
  C9_sorting_accented_after doc9w ("v") 1 0 (by decide) (by decide)
    ⟨("a").data, by decide⟩
    (Or.inl ⟨'e', ("bra").data, by decide, by decide⟩)

example : normalize_headword ("ære¹".data) = ("ære").data := by decide

example : parseMainEntry ("- **hus** *subst. n* house".data) =
    some (("hus").data, (" *subst. n* house").data) := by decide

example : parseMainEntry ("- **".data) = none := by decide

example : parseMainEntry ("- ***x".data) = none := by decide

example : parseMainEntry ("  • *x* y".data) = some (("x").data, ("* y").data) := by decide

end Nordic
